import Mathlib

/-!
# Verification of the logtape logging core

A shallow embedding of the logtape repository's core modules, translated
from the TypeScript sources:

* `src/logtape/filter.ts` — severity levels and level-based filters;
* `src/unnamed/part_003` (`category.ts`) — category normalization
  (`getCategoryList` / `deepFlatten`);
* `src/logtape/logger/logger.ts` — `LoggerImpl`: the logger tree,
  `filter`, `getSinks`, `propTransform`, `mergeProperties`, `_log`,
  `emit` with its sink-failure containment, `getChild`, `with`;
* the rotating file sink (its implementation file `filesink.*.ts` is not
  in the source tree; it is modelled from the spec, §4.4, and checked
  against `src/logtape/filesink.test.ts`).

Two complementary embeddings of `LoggerImpl` are used, reflecting the two
link directions the class stores:

* `LoggerNode` (parent chain) — each node carries its configuration and a
  link to its parent; this is the view used by `filter`, `getSinks`,
  `propTransform` and `emit`, which only ever walk upward.
* `LNode` (children table) — each node carries an identity tag, its
  category, bound properties and a name-keyed children table; this is the
  view used by `getLogger`/`getChild` interning.  Object identity
  (`===` in JS) is modelled by the identity tag: every `new LoggerImpl`
  draws a fresh tag from a counter threaded through the operations.

Timestamps (`Date.now()`) are omitted from the record model: no claim in
scope mentions them.  JS `WeakRef` collection is not modelled (nodes are
held strongly), matching the "as long as no collection occurred" provisos.
-/

namespace Logtape

/-- The fixed 6-value severity scale (`level.ts`). -/
inductive LogLevel where
  | debug | info | warning | error | critical | fatal
deriving DecidableEq, Repr

mutual
/-- A JS runtime value as far as log records need one: message parts and
property values.  `sinkRef`, `errRef` and `recordRef` stand for the sink
object, caught error object and nested record stored by `emit`'s failure
handler in `{ sink, error, record }`. -/
inductive Val : Type where
  | str (s : String)
  | nat (n : Nat)
  | sinkRef (s : Nat)
  | errRef (e : Nat)
  | recordRef (r : LogRecord)

/-- A log record (`record.ts`), sans timestamp: category, level, the raw
message, the rendered message (literal segments interleaved with values)
and the (possibly absent) properties object, modelled as an association
list. -/
inductive LogRecord : Type where
  | mk (category : List String) (level : LogLevel) (rawMessage : String)
       (message : List Val) (properties : Option (List (String × Val)))
end

/-- A properties object (`Record<string, unknown>`), as an association list. -/
abbrev PropMap := List (String × Val)

def LogRecord.category : LogRecord → List String
  | .mk c _ _ _ _ => c

def LogRecord.level : LogRecord → LogLevel
  | .mk _ l _ _ _ => l

def LogRecord.rawMessage : LogRecord → String
  | .mk _ _ m _ _ => m

def LogRecord.message : LogRecord → List Val
  | .mk _ _ _ m _ => m

def LogRecord.properties : LogRecord → Option PropMap
  | .mk _ _ _ _ p => p

/-- `RawLogRecord` (`propertiesTransformer.ts`): the strict fields a
properties transformer sees (timestamp omitted, see the header). -/
structure RawRecord where
  category : List String
  level : LogLevel
  rawMessage : String
  properties : Option PropMap

/-- `parentSinks` field: `"inherit" | "override"`. -/
inductive SinkPolicy where
  | inherit | override
deriving DecidableEq, Repr

/-- The per-node configuration of a `LoggerImpl`.  Sinks are identified by
numeric tags; a sink's behaviour lives in the `World` (see `emit`).
Filters and properties transformers are arbitrary functions, as in the
source. -/
structure NodeData where
  category : List String
  sinks : List Nat
  parentSinks : SinkPolicy
  filters : List (LogRecord → Bool)
  propTransformers : List (RawRecord → Option PropMap)
  properties : Option PropMap

/-- A `LoggerImpl` seen through its `parent` link: either the root
(`parent == null`) or a child of another node. -/
inductive LoggerNode where
  | root (d : NodeData)
  | child (parent : LoggerNode) (d : NodeData)

def LoggerNode.data : LoggerNode → NodeData
  | .root d => d
  | .child _ d => d

def LoggerNode.parentOpt : LoggerNode → Option LoggerNode
  | .root _ => none
  | .child p _ => some p

def LoggerNode.category (n : LoggerNode) : List String := n.data.category

def LoggerNode.filters (n : LoggerNode) : List (LogRecord → Bool) := n.data.filters

def LoggerNode.sinks (n : LoggerNode) : List Nat := n.data.sinks

def LoggerNode.nodeProperties (n : LoggerNode) : Option PropMap := n.data.properties

/-- `mergeProperties` (`logger.ts`): `a && b ? { ...a, ...b } : (a ?? b)`.
The object-spread `{ ...a, ...b }` keeps `a`'s keys in place with `b`'s
values where `b` overrides, then appends `b`'s new keys. -/
def spreadMerge (a b : PropMap) : PropMap :=
  a.map (fun kv => (kv.1, ((b.find? (fun kv2 => kv2.1 == kv.1)).map Prod.snd).getD kv.2))
    ++ b.filter (fun kv2 => !(a.any (fun kv => kv.1 == kv2.1)))

def mergeProperties (defaultProperties properties : Option PropMap) : Option PropMap :=
  match defaultProperties, properties with
  | some a, some b => some (spreadMerge a b)
  | some a, none => some a
  | none, some b => some b
  | none, none => none

/-- `LoggerImpl.filter`: every own filter must accept (short-circuiting on
the first rejection); with no own filters, defer to the parent; the root
with no filters accepts. -/
def LoggerNode.filterR : LoggerNode → LogRecord → Bool
  | .root d, r =>
    match d.filters with
    | [] => true
    | fs => fs.all (fun f => f r)
  | .child p d, r =>
    match d.filters with
    | [] => p.filterR r
    | fs => fs.all (fun f => f r)

/-- `LoggerImpl.getSinks`: parent's sinks first (when a parent exists and
the policy is `inherit`), then the node's own sinks. -/
def LoggerNode.getSinks : LoggerNode → List Nat
  | .root d => d.sinks
  | .child p d =>
    (if d.parentSinks = SinkPolicy.inherit then p.getSinks else []) ++ d.sinks

/-- `LoggerImpl.propTransform`: with no own transformers defer to the
parent (root default: the raw properties unchanged); otherwise fold the
own transformers over the record-so-far. -/
def LoggerNode.propTransform : LoggerNode → RawRecord → Option PropMap
  | .root d, raw =>
    match d.propTransformers with
    | [] => raw.properties
    | ts => (ts.foldl (fun acc t => { acc with properties := t acc }) raw).properties
  | .child p d, raw =>
    match d.propTransformers with
    | [] => p.propTransform raw
    | ts => (ts.foldl (fun acc t => { acc with properties := t acc }) raw).properties

/-! ## Emission (`LoggerImpl.emit` / `LoggerImpl._log`)

Sink behaviour is abstracted into a `World`: `throws s r = some e` means
the sink tagged `s` throws the error `e` when invoked with record `r`
(`none`: the invocation returns normally).  The world also fixes the meta
logger node (`metaLogger = LoggerImpl.getLogger(["logtape", "meta"])`).

`emit` is turned into a trace semantics: it returns the list of events it
performs.  `Event.invoke s r` is the call `sink(record)`;
`Event.metaLog r b sub` is the failure handler's call
`metaLogger._log("fatal", ..., bypassSinks2)` together with the events
`sub` that this nested dispatch performs.

The nested dispatch recursion is fuelled; `none` models non-termination.
The code's termination argument (the bypass set grows inside the fixed
sink list of the meta logger) is then a theorem: with fuel
`metaSinks.length + 1` the result is never `none` (`emit_total` below). -/

structure World where
  metaNode : LoggerNode
  throws : Nat → LogRecord → Option Nat

inductive Event where
  | invoke (sink : Nat) (record : LogRecord)
  | metaLog (record : LogRecord) (bypass : List Nat) (handler : List Event)

/-- The realized properties of a record built by `_log`: the getter
computes `propTransform({...baseRecord, properties: mergeProperties(this.properties, props)})`. -/
def logProps (n : LoggerNode) (level : LogLevel) (rawMessage : String)
    (callerProps : Option PropMap) : Option PropMap :=
  n.propTransform ⟨n.category, level, rawMessage, mergeProperties n.nodeProperties callerProps⟩

/-- The record built by `_log(level, rawMessage, properties)` on node `n`,
with its lazy properties realized (the laziness itself is analysed by the
`Cell` model below). -/
def mkLogRecord (n : LoggerNode) (level : LogLevel) (rawMessage : String)
    (callerProps : Option PropMap) : LogRecord :=
  .mk n.category level rawMessage [.str rawMessage] (logProps n level rawMessage callerProps)

/-- The `{ sink, error, record }` object passed by the failure handler. -/
def failureProps (s e : Nat) (r : LogRecord) : PropMap :=
  [("sink", .sinkRef s), ("error", .errRef e), ("record", .recordRef r)]

/-- The message of the failure handler's meta record. -/
def sinkFailureMessage : String := "Failed to emit a log record to sink"

/-- The record `metaLogger._log("fatal", "Failed to emit a log record to sink",
{ sink, error, record }, ...)` builds. -/
def mkMetaRecord (w : World) (s e : Nat) (r : LogRecord) : LogRecord :=
  mkLogRecord w.metaNode .fatal sinkFailureMessage (some (failureProps s e r))

/-- The dispatch loop of `emit`: walk the pending sinks, skipping members
of the bypass set; a throwing sink is handled by re-logging at the meta
node with the failing sink added to the bypass set (the nested dispatch
inlines `emit w.metaNode`: its filter check, then this loop over the meta
node's sinks).  `fuel` bounds the nesting depth of failure handlers. -/
def emitLoop (w : World) (fuel : Nat) (pending : List Nat) (r : LogRecord)
    (b : List Nat) : Option (List Event) :=
  match pending with
  | [] => some []
  | s :: rest =>
    if s ∈ b then emitLoop w fuel rest r b
    else
      match w.throws s r with
      | none => do
          let evs ← emitLoop w fuel rest r b
          some (.invoke s r :: evs)
      | some e =>
          match _hf : fuel with
          | 0 => none
          | fuel' + 1 => do
              let mrec := mkMetaRecord w s e r
              let sub ←
                if w.metaNode.filterR mrec then
                  emitLoop w fuel' w.metaNode.getSinks mrec (s :: b)
                else some []
              let evs ← emitLoop w fuel rest r b
              some (.invoke s r :: .metaLog mrec (s :: b) sub :: evs)
  termination_by (fuel, pending.length)
  decreasing_by
    · simp_wf; omega
    · simp_wf; omega
    · simp_wf; omega
    · simp_wf; omega

/-- Fuel that always suffices (shown by `emit_total`). -/
def metaFuel (w : World) : Nat := w.metaNode.getSinks.length + 1

/-- `LoggerImpl.emit(record, bypassSinks)` on node `n`. -/
def nodeEmit (w : World) (n : LoggerNode) (r : LogRecord) (b : List Nat) :
    Option (List Event) :=
  if n.filterR r then emitLoop w (metaFuel w) n.getSinks r b else some []

/-! ## Lazy properties realization (`_log`'s memoizing getter)

`_log` installs `get properties()` on the record: the first read computes
`getProperties()` and replaces the getter by the computed value
(`Object.defineProperty`), so later reads return the cached value.  The
same compute-once pattern realizes `message`/`rawMessage` in `logLazily`.
`Cell` models that getter: `cached` is whether the value has been
installed, `runs` how many times the underlying computation (and hence a
value-producing caller callback) has run. -/

structure Cell where
  cached : Bool
  runs : Nat
deriving DecidableEq, Repr

/-- One read of the memoized getter. -/
def Cell.read (c : Cell) : Cell :=
  if c.cached then c else { cached := true, runs := c.runs + 1 }

/-- The reads performed by `emit`'s dispatch loop on an accepted record:
each non-bypassed sink receives the record and reads its lazy component
(every sink shipped with the repository renders the whole record).
Filters are evaluated before any sink runs but read only the strict
fields (`level`, `category`, `message`) — true of every filter the
repository constructs — so they perform no read of the lazy cell. -/
def dispatchReads (sinks : List Nat) (b : List Nat) (c : Cell) : Cell :=
  sinks.foldl (fun acc s => if s ∈ b then acc else acc.read) c

/-- How many times the value-producing callback of a `_log` call (or the
lazy-realization callback of a `logLazily` call) runs: none if the filter
chain rejects the record; otherwise one per *uncached* read during
dispatch. -/
def callbackRuns (n : LoggerNode) (r : LogRecord) (b : List Nat) : Nat :=
  if n.filterR r then (dispatchReads n.getSinks b ⟨false, 0⟩).runs else 0

/-- The properties value each non-bypassed sink observes for one record:
always the single memoized value. -/
def dispatchObservations (n : LoggerNode) (r : LogRecord) (b : List Nat) :
    List (Nat × Option PropMap) :=
  (n.getSinks.filter (fun s => !(s ∈ b : Bool))).map (fun s => (s, r.properties))

/-! ## Filter and sink resolution theorems (C3, C4) -/

theorem filterR_root_cons (d : NodeData) (r : LogRecord) (f : LogRecord → Bool)
    (rest : List (LogRecord → Bool)) (h : d.filters = f :: rest) :
    (LoggerNode.root d).filterR r = (f :: rest).all (fun g => g r) := by
  simp only [LoggerNode.filterR, h]

theorem filterR_child_cons (p : LoggerNode) (d : NodeData) (r : LogRecord)
    (f : LogRecord → Bool) (rest : List (LogRecord → Bool)) (h : d.filters = f :: rest) :
    (LoggerNode.child p d).filterR r = (f :: rest).all (fun g => g r) := by
  simp only [LoggerNode.filterR, h]

theorem filterR_own_nonempty (n : LoggerNode) (r : LogRecord) (h : n.filters ≠ []) :
    n.filterR r = n.filters.all (fun g => g r) := by
  cases n with
  | root d =>
    cases hf : d.filters with
    | nil => exact absurd hf h
    | cons f rest => rw [filterR_root_cons d r f rest hf]; simp [LoggerNode.filters, LoggerNode.data, hf]
  | child p d =>
    cases hf : d.filters with
    | nil => exact absurd hf h
    | cons f rest => rw [filterR_child_cons p d r f rest hf]; simp [LoggerNode.filters, LoggerNode.data, hf]

/-- C3: for every node `n` and record `r`, `filter(n, r)` accepts iff
either `n.filters` is non-empty and every filter in that list accepts `r`
(logical AND, registration order — a rejection by an earlier filter
decides the result regardless of later filters, and ancestor filters are
not consulted: the right-hand side mentions only `n`'s own list), or
`n.filters` is empty and the parent's `filter` accepts `r`; a root node
with no filters accepts every record. -/
theorem filter_resolution :
    (∀ (n : LoggerNode) (r : LogRecord), n.filters ≠ [] →
      (n.filterR r = true ↔ ∀ f ∈ n.filters, f r = true)) ∧
    (∀ (n : LoggerNode) (r : LogRecord) (f : LogRecord → Bool) rest,
      n.filters = f :: rest → f r = false → n.filterR r = false) ∧
    (∀ (p : LoggerNode) (d : NodeData) (r : LogRecord), d.filters = [] →
      (LoggerNode.child p d).filterR r = p.filterR r) ∧
    (∀ (d : NodeData) (r : LogRecord), d.filters = [] →
      (LoggerNode.root d).filterR r = true) := by
  refine ⟨?_, ?_, ?_, ?_⟩
  · intro n r h
    rw [filterR_own_nonempty n r h]
    simp [List.all_eq_true]
  · intro n r f rest h hf
    rw [filterR_own_nonempty n r (by simp [h])]
    simp [h, hf]
  · intro p d r h
    simp only [LoggerNode.filterR, h]
  · intro d r h
    simp only [LoggerNode.filterR, h]

/-- Closed instance of `filter_resolution`: a level filter on a child node
accepts an `error`-level record and is the sole authority (the parent's
rejecting filter is not consulted), while an empty own list defers to the
parent. -/
theorem filter_resolution_witness :
    ((LoggerNode.child
        (.root ⟨[], [], .inherit, [fun _ => false], [], none⟩)
        ⟨["foo"], [], .inherit, [fun r => decide (r.level = .error)], [], none⟩).filterR
      (.mk ["foo"] .error "m" [] none) = true ↔
      ∀ f ∈ [fun (r : LogRecord) => decide (r.level = .error)],
        f (.mk ["foo"] .error "m" [] none) = true) ∧
    (LoggerNode.child
        (.root ⟨[], [], .inherit, [fun _ => false], [], none⟩)
        ⟨["foo"], [], .inherit, [], [], none⟩).filterR
      (.mk ["foo"] .error "m" [] none) =
      (LoggerNode.root ⟨[], [], .inherit, [fun _ => false], [], none⟩).filterR
        (.mk ["foo"] .error "m" [] none) :=
  ⟨filter_resolution.1
      (LoggerNode.child
        (.root ⟨[], [], .inherit, [fun _ => false], [], none⟩)
        ⟨["foo"], [], .inherit, [fun r => decide (r.level = .error)], [], none⟩)
      (.mk ["foo"] .error "m" [] none) (by simp [LoggerNode.filters, LoggerNode.data]),
    filter_resolution.2.2.1
      (.root ⟨[], [], .inherit, [fun _ => false], [], none⟩)
      ⟨["foo"], [], .inherit, [], [], none⟩
      (.mk ["foo"] .error "m" [] none) rfl⟩

/-- The concrete sink-inheritance scenario of the claim: root with sink
`1` (the claim's `a`), child with sink `2` (`b`), grandchild with sink
`3` (`d`). -/
def plainData (cat : List String) (sinks : List Nat) (policy : SinkPolicy) : NodeData :=
  ⟨cat, sinks, policy, [], [], none⟩

def rootA : LoggerNode := .root (plainData [] [1] .inherit)

def childB : LoggerNode := .child rootA (plainData ["x"] [2] .inherit)

def grandD : LoggerNode := .child childB (plainData ["x", "y"] [3] .inherit)

def grandDOverride : LoggerNode := .child childB (plainData ["x", "y"] [3] .override)

/-- C4: `getSinks` yields, for a node with the `inherit` policy and a
parent, the parent's resolved sinks followed by the node's own sinks in
registration order; with the `override` policy only the node's own
sinks; the concrete root-`a` / child-`b` / grandchild-`d` scenario
resolves to `[a, b, d]` at the grandchild, and to `[d]` after setting
the grandchild's policy to `override`. -/
theorem sink_resolution :
    (∀ (p : LoggerNode) (d : NodeData), d.parentSinks = SinkPolicy.inherit →
      (LoggerNode.child p d).getSinks = p.getSinks ++ d.sinks) ∧
    (∀ (p : LoggerNode) (d : NodeData), d.parentSinks = SinkPolicy.override →
      (LoggerNode.child p d).getSinks = d.sinks) ∧
    (∀ d : NodeData, (LoggerNode.root d).getSinks = d.sinks) ∧
    grandD.getSinks = [1, 2, 3] ∧
    grandDOverride.getSinks = [3] := by
  refine ⟨?_, ?_, ?_, rfl, rfl⟩
  · intro p d h; simp [LoggerNode.getSinks, h]
  · intro p d h; simp [LoggerNode.getSinks, h]
  · intro d; rfl

/-- Closed instance of `sink_resolution` at the scenario nodes. -/
theorem sink_resolution_witness :
    grandD.getSinks = childB.getSinks ++ (plainData ["x", "y"] [3] .inherit).sinks ∧
    grandDOverride.getSinks = (plainData ["x", "y"] [3] .override).sinks :=
  ⟨sink_resolution.1 childB (plainData ["x", "y"] [3] .inherit) rfl,
    sink_resolution.2.1 childB (plainData ["x", "y"] [3] .override) rfl⟩

/-! ## Laziness and memoization theorems (C2) -/

theorem dispatchReads_cons (s : Nat) (rest b : List Nat) (c : Cell) :
    dispatchReads (s :: rest) b c = dispatchReads rest b (if s ∈ b then c else c.read) := by
  simp [dispatchReads, List.foldl]

theorem dispatchReads_cached (sinks b : List Nat) (k : Nat) :
    dispatchReads sinks b ⟨true, k⟩ = ⟨true, k⟩ := by
  induction sinks with
  | nil => rfl
  | cons s rest ih =>
    rw [dispatchReads_cons]
    have : (if s ∈ b then (⟨true, k⟩ : Cell) else Cell.read ⟨true, k⟩) = ⟨true, k⟩ := by
      simp [Cell.read]
    rw [this, ih]

theorem dispatchReads_all_bypassed (sinks b : List Nat)
    (h : ∀ s ∈ sinks, s ∈ b) :
    dispatchReads sinks b ⟨false, 0⟩ = ⟨false, 0⟩ := by
  induction sinks with
  | nil => rfl
  | cons s rest ih =>
    rw [dispatchReads_cons, if_pos (h s (by simp))]
    exact ih (fun t ht => h t (by simp [ht]))

theorem dispatchReads_hit (sinks b : List Nat)
    (h : ∃ s ∈ sinks, s ∉ b) :
    dispatchReads sinks b ⟨false, 0⟩ = ⟨true, 1⟩ := by
  induction sinks with
  | nil => simp at h
  | cons s rest ih =>
    rw [dispatchReads_cons]
    by_cases hs : s ∈ b
    · rw [if_pos hs]
      refine ih ?_
      obtain ⟨t, ht, htb⟩ := h
      rcases (List.mem_cons.mp ht) with rfl | ht'
      · exact absurd hs htb
      · exact ⟨t, ht', htb⟩
    · rw [if_neg hs]
      show dispatchReads rest b (Cell.read ⟨false, 0⟩) = ⟨true, 1⟩
      have : Cell.read ⟨false, 0⟩ = ⟨true, 1⟩ := rfl
      rw [this, dispatchReads_cached]

theorem dispatchReads_runs_le_one (sinks b : List Nat) :
    (dispatchReads sinks b ⟨false, 0⟩).runs ≤ 1 := by
  by_cases h : ∃ s ∈ sinks, s ∉ b
  · rw [dispatchReads_hit sinks b h]
  · rw [dispatchReads_all_bypassed sinks b (by push_neg at h; exact h)]
    exact Nat.zero_le 1

/-- C2: for a log call whose properties argument is a zero-argument
callback (and likewise for the lazy-realization callback of
`logLazily`), a record rejected by the effective filter chain never runs
the callback; an accepted record dispatched to at least one non-bypassed
sink runs it exactly once; the memoized getter runs the computation at
most once however many sinks read it; and every non-bypassed sink
observes the same properties value for the record. -/
theorem lazy_callback_contract :
    (∀ (n : LoggerNode) (r : LogRecord) (b : List Nat),
      n.filterR r = false → callbackRuns n r b = 0) ∧
    (∀ (n : LoggerNode) (r : LogRecord) (b : List Nat),
      n.filterR r = true → (∃ s ∈ n.getSinks, s ∉ b) → callbackRuns n r b = 1) ∧
    (∀ (n : LoggerNode) (r : LogRecord) (b : List Nat), callbackRuns n r b ≤ 1) ∧
    (∀ (n : LoggerNode) (r : LogRecord) (b : List Nat) (o₁ o₂ : Nat × Option PropMap),
      o₁ ∈ dispatchObservations n r b → o₂ ∈ dispatchObservations n r b →
      o₁.2 = o₂.2) := by
  refine ⟨?_, ?_, ?_, ?_⟩
  · intro n r b h
    simp [callbackRuns, h]
  · intro n r b h hs
    simp only [callbackRuns, h, if_true]
    rw [dispatchReads_hit _ _ hs]
  · intro n r b
    by_cases h : n.filterR r
    · simp only [callbackRuns, h, if_true]
      exact dispatchReads_runs_le_one _ _
    · simp [callbackRuns, h]
  · intro n r b o₁ o₂ h₁ h₂
    simp only [dispatchObservations, List.mem_map] at h₁ h₂
    obtain ⟨s₁, _, rfl⟩ := h₁
    obtain ⟨s₂, _, rfl⟩ := h₂
    rfl

/-- Closed instance of `lazy_callback_contract`: a node whose only filter
is the `error` level filter, with one sink; a `warning` record runs the
callback zero times, an `error` record exactly once. -/
theorem lazy_callback_contract_witness :
    callbackRuns
      (.root ⟨["foo"], [1], .inherit,
        [fun r => decide (r.level = LogLevel.error)], [], none⟩)
      (.mk ["foo"] .warning "w" [] none) [] = 0 ∧
    callbackRuns
      (.root ⟨["foo"], [1], .inherit,
        [fun r => decide (r.level = LogLevel.error)], [], none⟩)
      (.mk ["foo"] .error "e" [] none) [] = 1 :=
  ⟨lazy_callback_contract.1
      (.root ⟨["foo"], [1], .inherit,
        [fun r => decide (r.level = LogLevel.error)], [], none⟩)
      (.mk ["foo"] .warning "w" [] none) [] rfl,
    lazy_callback_contract.2.1
      (.root ⟨["foo"], [1], .inherit,
        [fun r => decide (r.level = LogLevel.error)], [], none⟩)
      (.mk ["foo"] .error "e" [] none) [] rfl
      ⟨1, by simp [LoggerNode.getSinks], by simp⟩⟩

/-! ## Default properties of eager records (C9) -/

/-- Neither this node nor any ancestor has a properties transformer (the
default state of the tree). -/
def noTransformersB : LoggerNode → Bool
  | .root d => d.propTransformers.isEmpty
  | .child p d => d.propTransformers.isEmpty && noTransformersB p

theorem propTransform_default (n : LoggerNode) (raw : RawRecord)
    (h : noTransformersB n = true) : n.propTransform raw = raw.properties := by
  induction n with
  | root d =>
    simp only [noTransformersB, List.isEmpty_iff] at h
    simp [LoggerNode.propTransform, h]
  | child p d ih =>
    simp only [noTransformersB, Bool.and_eq_true, List.isEmpty_iff] at h
    rw [LoggerNode.propTransform]
    simp only [h.1]
    exact ih h.2

/-- C9: `mergeProperties(undefined, undefined)` is `undefined`, and an
eager log call with no properties argument on a logger with no bound
properties (and no properties transformer anywhere on its chain, the
default) produces a record whose memoized properties accessor yields
`undefined` — not an empty mapping. -/
theorem eager_undefined_properties :
    mergeProperties none none = none ∧
    (∀ (n : LoggerNode) (lvl : LogLevel) (msg : String),
      noTransformersB n = true → n.nodeProperties = none →
      (mkLogRecord n lvl msg none).properties = none ∧
      (mkLogRecord n lvl msg none).properties ≠ some []) := by
  refine ⟨rfl, ?_⟩
  intro n lvl msg ht hp
  have : (mkLogRecord n lvl msg none).properties = none := by
    simp only [mkLogRecord, LogRecord.properties, logProps]
    rw [propTransform_default n _ ht]
    simp [hp, mergeProperties]
  exact ⟨this, by simp [this]⟩

/-- Closed instance of `eager_undefined_properties` at a concrete logger. -/
theorem eager_undefined_properties_witness :
    (mkLogRecord (.root ⟨["foo"], [1], .inherit, [], [], none⟩)
      .info "Hello, world!" none).properties = none :=
  (eager_undefined_properties.2
    (.root ⟨["foo"], [1], .inherit, [], [], none⟩)
    .info "Hello, world!" rfl rfl).1

/-! ## Failure containment (C1)

Unfolding equations for `emitLoop`, then the two key facts: the dispatch
always terminates with the fuel `emit` supplies, and a sink already in
the bypass set is never invoked anywhere in the produced event cascade. -/

theorem emitLoop_nil (w : World) (fuel : Nat) (r : LogRecord) (b : List Nat) :
    emitLoop w fuel [] r b = some [] := by
  simp [emitLoop]

theorem emitLoop_cons_mem (w : World) (fuel : Nat) (s : Nat) (rest : List Nat)
    (r : LogRecord) (b : List Nat) (h : s ∈ b) :
    emitLoop w fuel (s :: rest) r b = emitLoop w fuel rest r b := by
  rw [emitLoop]
  simp [h]

theorem emitLoop_cons_ok (w : World) (fuel : Nat) (s : Nat) (rest : List Nat)
    (r : LogRecord) (b : List Nat) (h : s ∉ b) (ht : w.throws s r = none) :
    emitLoop w fuel (s :: rest) r b =
      Option.bind (emitLoop w fuel rest r b)
        (fun evs => some (.invoke s r :: evs)) := by
  rw [emitLoop]
  simp [h, ht]

theorem emitLoop_cons_throw_zero (w : World) (s : Nat) (rest : List Nat)
    (r : LogRecord) (b : List Nat) (e : Nat) (h : s ∉ b)
    (ht : w.throws s r = some e) :
    emitLoop w 0 (s :: rest) r b = none := by
  rw [emitLoop]
  simp [h, ht]

theorem emitLoop_cons_throw (w : World) (fuel : Nat) (s : Nat) (rest : List Nat)
    (r : LogRecord) (b : List Nat) (e : Nat) (h : s ∉ b)
    (ht : w.throws s r = some e) :
    emitLoop w (fuel + 1) (s :: rest) r b =
      Option.bind
        (if w.metaNode.filterR (mkMetaRecord w s e r) then
          emitLoop w fuel w.metaNode.getSinks (mkMetaRecord w s e r) (s :: b)
        else some [])
        (fun sub =>
          Option.bind (emitLoop w (fuel + 1) rest r b)
            (fun evs =>
              some (.invoke s r ::
                .metaLog (mkMetaRecord w s e r) (s :: b) sub :: evs))) := by
  rw [emitLoop]
  by_cases hf : w.metaNode.filterR (mkMetaRecord w s e r) <;> simp [h, ht, hf]

/-- How many sinks of `S` the bypass set `b` does not yet contain: the
decreasing measure behind the code's termination argument. -/
def countNotMem : List Nat → List Nat → Nat
  | [], _ => 0
  | s :: rest, b => (if s ∈ b then 0 else 1) + countNotMem rest b

theorem countNotMem_le_length (S b : List Nat) : countNotMem S b ≤ S.length := by
  induction S with
  | nil => exact Nat.le_refl 0
  | cons t rest ih =>
    by_cases h : t ∈ b <;> simp only [countNotMem, h, if_true, if_false, List.length_cons] <;> omega

theorem countNotMem_mono (S : List Nat) (x : Nat) (b : List Nat) :
    countNotMem S (x :: b) ≤ countNotMem S b := by
  induction S with
  | nil => exact Nat.le_refl 0
  | cons t rest ih =>
    simp only [countNotMem]
    by_cases hb : t ∈ b
    · have hxb : t ∈ x :: b := List.mem_cons_of_mem _ hb
      simp only [hb, hxb, if_true]
      omega
    · by_cases hx : t = x
      · subst hx
        simp only [hb, List.mem_cons_self, if_true, if_false]
        omega
      · have hxb : t ∉ x :: b := by
          intro hc
          rcases List.mem_cons.mp hc with h | h
          · exact hx h
          · exact hb h
        simp only [hb, hxb, if_false]
        omega

theorem countNotMem_cons_lt (S : List Nat) (s : Nat) (b : List Nat)
    (hS : s ∈ S) (hb : s ∉ b) : countNotMem S (s :: b) < countNotMem S b := by
  induction S with
  | nil => simp at hS
  | cons t rest ih =>
    simp only [countNotMem]
    rcases List.mem_cons.mp hS with rfl | ht
    · simp only [hb, List.mem_cons_self, if_true, if_false]
      have := countNotMem_mono rest s b
      omega
    · by_cases htb : t ∈ b
      · have htsb : t ∈ s :: b := List.mem_cons_of_mem _ htb
        simp only [htb, htsb, if_true]
        have := ih ht
        omega
      · by_cases hts : t = s
        · subst hts
          simp only [htb, List.mem_cons_self, if_true, if_false]
          have := countNotMem_mono rest t b
          omega
        · have htsb : t ∉ s :: b := by
            intro hc
            rcases List.mem_cons.mp hc with h | h
            · exact hts h
            · exact htb h
          simp only [htb, htsb, if_false]
          have := ih ht
          omega

theorem countNotMem_pos (S b : List Nat) (s : Nat) (hS : s ∈ S) (hb : s ∉ b) :
    1 ≤ countNotMem S b := by
  induction S with
  | nil => simp at hS
  | cons t rest ih =>
    simp only [countNotMem]
    rcases List.mem_cons.mp hS with rfl | ht
    · simp only [hb, if_false]
      omega
    · by_cases htb : t ∈ b
      · simp only [htb, if_true]
        have := ih ht
        omega
      · simp only [htb, if_false]
        omega

/-- Dispatching at the meta node never runs out of fuel while the fuel
dominates the number of meta sinks not yet bypassed: each nested failure
handler moves one more meta sink into the bypass set. -/
theorem emitLoop_meta_ne_none (w : World) (fuel : Nat) :
    ∀ (pending : List Nat) (r : LogRecord) (b : List Nat),
      (∀ s ∈ pending, s ∈ w.metaNode.getSinks) →
      countNotMem w.metaNode.getSinks b ≤ fuel →
      emitLoop w fuel pending r b ≠ none := by
  induction fuel using Nat.strong_induction_on with
  | _ fuel ihf =>
    intro pending
    induction pending with
    | nil =>
      intro r b _ _
      rw [emitLoop_nil]
      exact Option.some_ne_none _
    | cons s rest ihp =>
      intro r b hsub hcount
      have hrest : ∀ t ∈ rest, t ∈ w.metaNode.getSinks :=
        fun t ht => hsub t (List.mem_cons_of_mem _ ht)
      by_cases hsb : s ∈ b
      · rw [emitLoop_cons_mem w fuel s rest r b hsb]
        exact ihp r b hrest hcount
      · cases hth : w.throws s r with
        | none =>
          rw [emitLoop_cons_ok w fuel s rest r b hsb hth]
          cases hX : emitLoop w fuel rest r b with
          | none => exact absurd hX (ihp r b hrest hcount)
          | some evs => simp
        | some e =>
          cases fuel with
          | zero =>
            have h1 := countNotMem_pos w.metaNode.getSinks b s
              (hsub s (List.mem_cons_self s rest)) hsb
            omega
          | succ fuel' =>
            rw [emitLoop_cons_throw w fuel' s rest r b e hsb hth]
            have hA : emitLoop w fuel' w.metaNode.getSinks
                (mkMetaRecord w s e r) (s :: b) ≠ none := by
              refine ihf fuel' (Nat.lt_succ_self fuel') w.metaNode.getSinks
                (mkMetaRecord w s e r) (s :: b) (fun t ht => ht) ?_
              have hlt := countNotMem_cons_lt w.metaNode.getSinks s b
                (hsub s (List.mem_cons_self s rest)) hsb
              omega
            have hB : emitLoop w (fuel' + 1) rest r b ≠ none :=
              ihp r b hrest hcount
            cases hf : w.metaNode.filterR (mkMetaRecord w s e r) with
            | true =>
              simp only [hf, if_true]
              cases hX : emitLoop w fuel' w.metaNode.getSinks
                  (mkMetaRecord w s e r) (s :: b) with
              | none => exact absurd hX hA
              | some sub =>
                cases hY : emitLoop w (fuel' + 1) rest r b with
                | none => exact absurd hY hB
                | some evs => simp
            | false =>
              simp only [hf, if_false, Bool.false_eq_true]
              cases hY : emitLoop w (fuel' + 1) rest r b with
              | none => exact absurd hY hB
              | some evs => simp [hY]

/-- With the fuel `nodeEmit` supplies, the dispatch loop always completes:
the first failing sink may lie outside the meta sink list (spending one
fuel unit), every further nested handler bypasses one more meta sink. -/
theorem emitLoop_top_ne_none (w : World) (pending : List Nat) (r : LogRecord)
    (b : List Nat) : emitLoop w (metaFuel w) pending r b ≠ none := by
  induction pending with
  | nil =>
    rw [emitLoop_nil]
    exact Option.some_ne_none _
  | cons s rest ihp =>
    by_cases hsb : s ∈ b
    · rw [emitLoop_cons_mem w _ s rest r b hsb]
      exact ihp
    · cases hth : w.throws s r with
      | none =>
        rw [emitLoop_cons_ok w _ s rest r b hsb hth]
        cases hX : emitLoop w (metaFuel w) rest r b with
        | none => exact absurd hX ihp
        | some evs => simp
      | some e =>
        show emitLoop w (w.metaNode.getSinks.length + 1) (s :: rest) r b ≠ none
        rw [emitLoop_cons_throw w _ s rest r b e hsb hth]
        have hA : emitLoop w w.metaNode.getSinks.length w.metaNode.getSinks
            (mkMetaRecord w s e r) (s :: b) ≠ none := by
          refine emitLoop_meta_ne_none w _ w.metaNode.getSinks
            (mkMetaRecord w s e r) (s :: b) (fun t ht => ht) ?_
          have h1 := countNotMem_mono w.metaNode.getSinks s b
          have h2 := countNotMem_le_length w.metaNode.getSinks b
          omega
        have hB : emitLoop w (w.metaNode.getSinks.length + 1) rest r b ≠ none := ihp
        cases hf : w.metaNode.filterR (mkMetaRecord w s e r) with
        | true =>
          simp only [hf, if_true]
          cases hX : emitLoop w w.metaNode.getSinks.length w.metaNode.getSinks
              (mkMetaRecord w s e r) (s :: b) with
          | none => exact absurd hX hA
          | some sub =>
            cases hY : emitLoop w (w.metaNode.getSinks.length + 1) rest r b with
            | none => exact absurd hY hB
            | some evs => simp
        | false =>
          simp only [hf, if_false, Bool.false_eq_true]
          cases hY : emitLoop w (w.metaNode.getSinks.length + 1) rest r b with
          | none => exact absurd hY hB
          | some evs => simp [hY]

/-- `emit` never fails to produce a result: no sink exception escapes and
the meta-logging recursion is bounded. -/
theorem nodeEmit_total (w : World) (n : LoggerNode) (r : LogRecord)
    (b : List Nat) : ∃ evs, nodeEmit w n r b = some evs := by
  unfold nodeEmit
  by_cases hf : n.filterR r
  · simp only [hf, if_true]
    cases hX : emitLoop w (metaFuel w) n.getSinks r b with
    | none => exact absurd hX (emitLoop_top_ne_none w n.getSinks r b)
    | some evs => exact ⟨evs, rfl⟩
  · simp only [hf]
    exact ⟨[], by simp⟩

mutual
/-- `avoidsB x ev = true` iff the sink `x` is invoked nowhere in the event
`ev`, including inside nested failure-handler cascades. -/
def avoidsB (x : Nat) : Event → Bool
  | .invoke s _ => s != x
  | .metaLog _ _ sub => avoidsL x sub

def avoidsL (x : Nat) : List Event → Bool
  | [] => true
  | ev :: rest => avoidsB x ev && avoidsL x rest
end

/-- A sink in the bypass set is never invoked anywhere in the event
cascade the dispatch loop produces: nested handlers only ever grow the
bypass set. -/
theorem emitLoop_avoids (w : World) (fuel : Nat) :
    ∀ (pending : List Nat) (r : LogRecord) (b : List Nat) (evs : List Event),
      emitLoop w fuel pending r b = some evs →
      ∀ x ∈ b, avoidsL x evs = true := by
  induction fuel using Nat.strong_induction_on with
  | _ fuel ihf =>
    intro pending
    induction pending with
    | nil =>
      intro r b evs hev x hx
      rw [emitLoop_nil] at hev
      cases hev
      rfl
    | cons s rest ihp =>
      intro r b evs hev x hx
      by_cases hsb : s ∈ b
      · rw [emitLoop_cons_mem w fuel s rest r b hsb] at hev
        exact ihp r b evs hev x hx
      · cases hth : w.throws s r with
        | none =>
          rw [emitLoop_cons_ok w fuel s rest r b hsb hth] at hev
          cases hX : emitLoop w fuel rest r b with
          | none => rw [hX] at hev; cases hev
          | some evs' =>
            rw [hX] at hev
            simp only [Option.some_bind, Option.some.injEq] at hev
            subst hev
            have hxs : s ≠ x := fun hc => hsb (hc ▸ hx)
            simp only [avoidsL, avoidsB, Bool.and_eq_true, bne_iff_ne, ne_eq]
            exact ⟨hxs, ihp r b evs' hX x hx⟩
        | some e =>
          cases fuel with
          | zero =>
            rw [emitLoop_cons_throw_zero w s rest r b e hsb hth] at hev
            cases hev
          | succ fuel' =>
            rw [emitLoop_cons_throw w fuel' s rest r b e hsb hth] at hev
            have hsub : ∃ sub,
                (if w.metaNode.filterR (mkMetaRecord w s e r) then
                  emitLoop w fuel' w.metaNode.getSinks (mkMetaRecord w s e r) (s :: b)
                else some []) = some sub ∧ avoidsL x sub = true := by
              cases hfm : w.metaNode.filterR (mkMetaRecord w s e r) with
              | true =>
                simp only [hfm, if_true]
                cases hX : emitLoop w fuel' w.metaNode.getSinks
                    (mkMetaRecord w s e r) (s :: b) with
                | none =>
                  rw [hfm] at hev
                  simp only [if_true, hX, Option.none_bind] at hev
                  cases hev
                | some sub =>
                  exact ⟨sub, rfl, ihf fuel' (Nat.lt_succ_self fuel') _ _ _ sub hX x
                    (List.mem_cons_of_mem _ hx)⟩
              | false =>
                simp only [hfm, Bool.false_eq_true, if_false]
                exact ⟨[], rfl, rfl⟩
            obtain ⟨sub, hsubeq, hsubav⟩ := hsub
            rw [hsubeq] at hev
            simp only [Option.some_bind] at hev
            cases hY : emitLoop w (fuel' + 1) rest r b with
            | none => rw [hY] at hev; cases hev
            | some evs'' =>
              rw [hY] at hev
              simp only [Option.some_bind, Option.some.injEq] at hev
              subst hev
              have hxs : s ≠ x := fun hc => hsb (hc ▸ hx)
              simp only [avoidsL, avoidsB, Bool.and_eq_true, bne_iff_ne, ne_eq]
              exact ⟨hxs, hsubav, ihp r b evs'' hY x hx⟩

/-- If a non-bypassed sink of the pending list throws, the produced trace
contains the handler's meta-log event, carrying the meta record and the
enlarged bypass set, and the failing sink is invoked nowhere inside the
handler's cascade. -/
theorem emitLoop_metaLog_present (w : World) (fuel : Nat) :
    ∀ (pending : List Nat) (r : LogRecord) (b : List Nat) (evs : List Event)
      (s e : Nat),
      emitLoop w fuel pending r b = some evs →
      s ∈ pending → s ∉ b → w.throws s r = some e →
      ∃ sub, Event.metaLog (mkMetaRecord w s e r) (s :: b) sub ∈ evs ∧
        avoidsL s sub = true := by
  intro pending
  induction pending with
  | nil =>
    intro r b evs s e _ hmem
    simp at hmem
  | cons t rest ihp =>
    intro r b evs s e hev hmem hsb hth
    by_cases htb : t ∈ b
    · have hst : s ≠ t := fun hc => hsb (hc ▸ htb)
      have hsrest : s ∈ rest := by
        rcases List.mem_cons.mp hmem with rfl | h
        · exact absurd htb hsb
        · exact h
      rw [emitLoop_cons_mem w fuel t rest r b htb] at hev
      exact ihp r b evs s e hev hsrest hsb hth
    · cases htth : w.throws t r with
      | none =>
        have hst : s ≠ t := by
          intro hc
          rw [hc, htth] at hth
          cases hth
        have hsrest : s ∈ rest := by
          rcases List.mem_cons.mp hmem with rfl | h
          · exact absurd rfl hst
          · exact h
        rw [emitLoop_cons_ok w fuel t rest r b htb htth] at hev
        cases hX : emitLoop w fuel rest r b with
        | none => rw [hX] at hev; cases hev
        | some evs' =>
          rw [hX] at hev
          simp only [Option.some_bind, Option.some.injEq] at hev
          subst hev
          obtain ⟨sub, hin, hav⟩ := ihp r b evs' s e hX hsrest hsb hth
          exact ⟨sub, List.mem_cons_of_mem _ hin, hav⟩
      | some e' =>
        cases fuel with
        | zero =>
          rw [emitLoop_cons_throw_zero w t rest r b e' htb htth] at hev
          cases hev
        | succ fuel' =>
          rw [emitLoop_cons_throw w fuel' t rest r b e' htb htth] at hev
          have hsub : ∃ sub,
              (if w.metaNode.filterR (mkMetaRecord w t e' r) then
                emitLoop w fuel' w.metaNode.getSinks (mkMetaRecord w t e' r) (t :: b)
              else some []) = some sub ∧ avoidsL t sub = true := by
            cases hfm : w.metaNode.filterR (mkMetaRecord w t e' r) with
            | true =>
              simp only [hfm, if_true]
              cases hX : emitLoop w fuel' w.metaNode.getSinks
                  (mkMetaRecord w t e' r) (t :: b) with
              | none =>
                rw [hfm] at hev
                simp only [if_true, hX, Option.none_bind] at hev
                cases hev
              | some sub =>
                exact ⟨sub, rfl, emitLoop_avoids w fuel' _ _ _ sub hX t
                  (List.mem_cons_self t b)⟩
            | false =>
              simp only [hfm, Bool.false_eq_true, if_false]
              exact ⟨[], rfl, rfl⟩
          obtain ⟨sub, hsubeq, hsubav⟩ := hsub
          rw [hsubeq] at hev
          simp only [Option.some_bind] at hev
          cases hY : emitLoop w (fuel' + 1) rest r b with
          | none => rw [hY] at hev; cases hev
          | some evs'' =>
            rw [hY] at hev
            simp only [Option.some_bind, Option.some.injEq] at hev
            subst hev
            by_cases hst : s = t
            · subst hst
              rw [hth] at htth
              cases htth
              exact ⟨sub, List.mem_cons_of_mem _ (List.mem_cons_self _ _), hsubav⟩
            · have hsrest : s ∈ rest := by
                rcases List.mem_cons.mp hmem with rfl | h
                · exact absurd rfl hst
                · exact h
              obtain ⟨sub', hin, hav⟩ := ihp r b evs'' s e hY hsrest hsb hth
              exact ⟨sub', List.mem_cons_of_mem _ (List.mem_cons_of_mem _ hin), hav⟩

/-- In the default state of the meta logger (no bound properties and no
properties transformer on its chain), the handler's meta record carries
exactly the `{ sink, error, record }` properties. -/
theorem mkMetaRecord_default (w : World) (s e : Nat) (r : LogRecord)
    (hcat : w.metaNode.category = ["logtape", "meta"])
    (hmt : noTransformersB w.metaNode = true)
    (hmp : w.metaNode.nodeProperties = none) :
    mkMetaRecord w s e r =
      .mk ["logtape", "meta"] .fatal sinkFailureMessage [.str sinkFailureMessage]
        (some (failureProps s e r)) := by
  unfold mkMetaRecord mkLogRecord logProps
  rw [propTransform_default _ _ hmt, hcat, hmp]
  rfl

/-- C1: no exception of a sink invoked during `emit` propagates to the
caller: `emit` always completes with a trace (first conjunct; the fuelled
recursion never runs out, so the meta-logging recursion is bounded).  If
a non-bypassed sink `s` throws `e` while dispatching an accepted record
`r`, the trace contains the handler's meta-log event: a `fatal` record
with the fixed message `"Failed to emit a log record to sink"` and
properties `{ sink, error, record }`, logged at the reserved
`["logtape", "meta"]` category with bypass set `old ∪ {s}`, and `s` is
invoked nowhere in that handler's cascade (second conjunct). -/
theorem sink_failure_containment (w : World)
    (hcat : w.metaNode.category = ["logtape", "meta"])
    (hmt : noTransformersB w.metaNode = true)
    (hmp : w.metaNode.nodeProperties = none) :
    (∀ (n : LoggerNode) (r : LogRecord) (b : List Nat),
      ∃ evs, nodeEmit w n r b = some evs) ∧
    (∀ (n : LoggerNode) (r : LogRecord) (b : List Nat) (s e : Nat),
      n.filterR r = true → s ∈ n.getSinks → s ∉ b → w.throws s r = some e →
      ∃ evs, nodeEmit w n r b = some evs ∧
        ∃ sub,
          Event.metaLog
            (.mk ["logtape", "meta"] .fatal sinkFailureMessage
              [.str sinkFailureMessage] (some (failureProps s e r)))
            (s :: b) sub ∈ evs ∧
          avoidsL s sub = true) := by
  constructor
  · exact fun n r b => nodeEmit_total w n r b
  · intro n r b s e hf hs hb hth
    obtain ⟨evs, hevs⟩ := nodeEmit_total w n r b
    refine ⟨evs, hevs, ?_⟩
    have hloop : emitLoop w (metaFuel w) n.getSinks r b = some evs := by
      unfold nodeEmit at hevs
      rw [hf] at hevs
      simpa using hevs
    obtain ⟨sub, hin, hav⟩ :=
      emitLoop_metaLog_present w (metaFuel w) n.getSinks r b evs s e hloop hs hb hth
    rw [mkMetaRecord_default w s e r hcat hmt hmp] at hin
    exact ⟨sub, hin, hav⟩

/-- Concrete world for the closed instance of `sink_failure_containment`:
an unconfigured meta logger and an app logger with the single sink `7`,
which always throws error `42`. -/
def c1Meta : LoggerNode := .root ⟨["logtape", "meta"], [], .inherit, [], [], none⟩

def c1World : World := ⟨c1Meta, fun s _ => if s = 7 then some 42 else none⟩

def c1Node : LoggerNode := .root ⟨["app"], [7], .inherit, [], [], none⟩

def c1Record : LogRecord := .mk ["app"] .info "hi" [.str "hi"] none

/-- Closed instance of `sink_failure_containment`: the throwing sink `7`
produces the meta-log event with bypass `[7]`. -/
theorem sink_failure_containment_witness :
    ∃ evs, nodeEmit c1World c1Node c1Record [] = some evs ∧
      ∃ sub,
        Event.metaLog
          (.mk ["logtape", "meta"] .fatal sinkFailureMessage
            [.str sinkFailureMessage] (some (failureProps 7 42 c1Record)))
          [7] sub ∈ evs ∧
        avoidsL 7 sub = true :=
  (sink_failure_containment c1World rfl rfl rfl).2 c1Node c1Record [] 7 42
    rfl (by simp [c1Node, LoggerNode.getSinks]) (by simp) rfl

/-! ## Level filters (`filter.ts`, C8)

`filter.ts` works on level *strings* (an invalid string is representable
and raises `TypeError`), so this model keeps levels as strings here.
Filters are `record => boolean` closures reading only `record.level`;
they are modelled by their action on that level, and exceptions by
`Except`. -/

/-- `levelsOrder` (`filter.ts`): most severe first. -/
def levelsOrder : List String :=
  ["fatal", "critical", "error", "warning", "info", "debug"]

/-- `getLevelIndex`: the index in `levelsOrder`, or the `TypeError`
message for a string outside the 6-value scale. -/
def getLevelIndexE (level : String) : Except String Nat :=
  match levelsOrder.findIdx? (fun l => l == level) with
  | some i => .ok i
  | none => .error ("Invalid log level: " ++ level ++ ".")

/-- `getLevelFilter`: `null` rejects everything; `"debug"` accepts
everything; otherwise resolve the threshold index at construction time
(raising on an invalid level) and compare it with the record's index at
application time. -/
def getLevelFilterE (level : Option String) :
    Except String (String → Except String Bool) :=
  match level with
  | none => .ok (fun _ => .ok false)
  | some l =>
    if l == "debug" then .ok (fun _ => .ok true)
    else
      match getLevelIndexE l with
      | .error msg => .error msg
      | .ok li =>
          .ok (fun recLevel =>
            match getLevelIndexE recLevel with
            | .error msg => .error msg
            | .ok ri => .ok (decide (ri ≤ li)))

/-- `FilterLike`: a filter function, a severity level, or the `null`
sentinel. -/
inductive FilterLike where
  | fn (f : String → Except String Bool)
  | level (l : String)
  | nullSentinel

/-- `toFilter`: functions pass through; level values go through
`getLevelFilter`. -/
def toFilterE : FilterLike → Except String (String → Except String Bool)
  | .fn f => .ok f
  | .level l => getLevelFilterE (some l)
  | .nullSentinel => getLevelFilterE none

/-- Applying a possibly-failed filter construction to a record level. -/
def applyFilterE (fl : Except String (String → Except String Bool))
    (recLevel : String) : Except String Bool :=
  match fl with
  | .error msg => .error msg
  | .ok f => f recLevel

/-- The fixed severity ordering of the spec, least severe first:
`debug < info < warning < error < critical < fatal`. -/
def severityOrder : List String :=
  ["debug", "info", "warning", "error", "critical", "fatal"]

/-- Severity rank: position in `severityOrder` (0 = least severe). -/
def sevIndex (level : String) : Nat :=
  (severityOrder.findIdx? (fun l => l == level)).getD 0

/-- C8: `toFilter`/`getLevelFilter` turn a severity value into the
equivalent predicate over the fixed ordering `debug < info < warning <
error < critical < fatal`: for valid levels the constructed filter
accepts a record iff the record's level is at least as severe as the
threshold; the `null` sentinel yields a filter rejecting every record;
and a level outside the 6-value scale raises the `TypeError` already at
filter construction time. -/
theorem level_filter_contract :
    (∀ l ∈ severityOrder, ∀ r ∈ severityOrder,
      applyFilterE (toFilterE (.level l)) r =
        .ok (decide (sevIndex l ≤ sevIndex r))) ∧
    (∀ recLevel : String, applyFilterE (toFilterE .nullSentinel) recLevel = .ok false) ∧
    (∀ l : String, l ∉ severityOrder →
      getLevelFilterE (some l) = .error ("Invalid log level: " ++ l ++ ".")) := by
  refine ⟨?_, fun recLevel => rfl, ?_⟩
  · intro l hl r hr
    fin_cases hl <;> fin_cases hr <;> rfl
  · intro l hl
    have h1 : (l == "debug") = false := by
      simp only [beq_eq_false_iff_ne, ne_eq]
      intro hc
      exact hl (by rw [hc]; decide)
    have h2 : levelsOrder.findIdx? (fun x => x == l) = none := by
      rw [List.findIdx?_eq_none_iff]
      intro x hx
      simp only [beq_eq_false_iff_ne, ne_eq]
      intro hc
      apply hl
      rw [← hc]
      fin_cases hx <;> decide
    simp [getLevelFilterE, getLevelIndexE, h1, h2]

/-- Closed instance of `level_filter_contract`: the `warning` filter
accepts an `error` record, and `"invalid"` raises at construction. -/
theorem level_filter_contract_witness :
    applyFilterE (toFilterE (.level "warning")) "error" =
      .ok (decide (sevIndex "warning" ≤ sevIndex "error")) ∧
    getLevelFilterE (some "invalid") = .error "Invalid log level: invalid." :=
  ⟨level_filter_contract.1 "warning" (by decide) "error" (by decide),
    level_filter_contract.2.2 "invalid" (by decide)⟩

/-! ## Category normalization (`category.ts`, C6)

`MaybeCategory = string | null | undefined | readonly MaybeCategory[]`:
`absent` covers both `null` and `undefined`.  `deepFlatten` first checks
`typeof arr === "string"` (so a top-level `""` yields `[""]`), then the
JS falsiness of `null`/`undefined` (yielding `[]`), then flat-maps over
array items, where a string item — empty or not — yields itself. -/

inductive MaybeCategory where
  | str (s : String)
  | absent
  | arr (xs : List MaybeCategory)

mutual
def deepFlatten : MaybeCategory → List String
  | .str s => [s]
  | .absent => []
  | .arr xs => deepFlattenList xs

/-- The `arr.flatMap(item => typeof item === "string" ? [item] :
deepFlatten(item))` loop, written out. -/
def deepFlattenList : List MaybeCategory → List String
  | [] => []
  | item :: rest =>
    (match item with
     | .str s => [s]
     | other => deepFlatten other) ++ deepFlattenList rest
end

/-- `getCategoryList` delegates to `deepFlatten`. -/
def getCategoryList (category : MaybeCategory) : List String :=
  deepFlatten category

/-- C6 counterexample: the claim says the output "never contains an empty
segment", but an empty-string leaf is kept: `getCategoryList([""])` is
`[""]`, and the empty segment is in the output. -/
theorem getCategoryList_keeps_empty_segment :
    getCategoryList (.arr [.str ""]) = [""] ∧
    "" ∈ getCategoryList (.arr [.str "", .str "bar"]) := by
  have h1 : getCategoryList (.arr [.str ""]) = [""] := by
    simp [getCategoryList, deepFlatten, deepFlattenList]
  have h2 : getCategoryList (.arr [.str "", .str "bar"]) = ["", "bar"] := by
    simp [getCategoryList, deepFlatten, deepFlattenList]
  refine ⟨h1, ?_⟩
  rw [h2]
  decide

/-- C6 (amended): `getCategoryList` returns the string leaves of the
input in left-to-right, depth-first order; absent (`null`/`undefined`)
leaves are dropped entirely, but empty-string leaves are retained (they
are only treated as "stay at the current node" later, during `getChild`
navigation).  The equations: a string maps to its singleton, an absent
leaf to `[]`, and an array to the concatenation of its items' results. -/
theorem getCategoryList_flatten :
    (∀ s : String, getCategoryList (.str s) = [s]) ∧
    getCategoryList .absent = [] ∧
    (∀ xs : List MaybeCategory,
      getCategoryList (.arr xs) = (xs.map getCategoryList).flatten) := by
  have harr : ∀ xs, deepFlattenList xs = (xs.map getCategoryList).flatten := by
    intro xs
    induction xs with
    | nil => simp [deepFlattenList]
    | cons item rest ih =>
      cases item <;> simp [deepFlattenList, getCategoryList, deepFlatten, ih]
  exact ⟨fun s => by simp [getCategoryList, deepFlatten],
    by simp [getCategoryList, deepFlatten],
    fun xs => by simp [getCategoryList, deepFlatten, harr]⟩

/-- Closed instance of `getCategoryList_flatten`: a nested mixed input
flattens depth-first with absent leaves dropped and `""` retained. -/
theorem getCategoryList_flatten_witness :
    getCategoryList (.arr [.str "a", .absent, .arr [.str "", .str "b"]]) =
      ([MaybeCategory.str "a", .absent, .arr [.str "", .str "b"]].map
        getCategoryList).flatten :=
  getCategoryList_flatten.2.2 [.str "a", .absent, .arr [.str "", .str "b"]]

/-! ## Rotating file sink (C7) -/

/-- Modelled from the spec: the rotating file sink implementation
(`filesink.base.ts` / `filesink.deno.ts`) is not among the source files;
only its test (`src/logtape/filesink.test.ts`) is.  Spec §4.4: state is
the current file `P` (here `cur`), the rotated files `P.1, P.2, ...`
(here `rotated`, index `k` at position `k - 1`) and the byte threshold
`maxSize` (`maxFileSize`); `maxFiles` is unbounded by default, as in the
test, so no rotated file is ever deleted here. -/
structure RotState where
  cur : String
  rotated : List String
  maxSize : Nat
deriving DecidableEq, Repr

/-- Modelled from the spec: `write(record)`, after the formatter has
rendered the record into `chunk`.  If the current file's size plus the
chunk size would exceed `maxSize` and the current file is non-empty,
rotate before writing: renaming `P.(k-1)` to `P.k` from the highest
index down, then `P` to `P.1`, is prepending the old current file to
`rotated`; the fresh `P` then holds only the triggering chunk.
Otherwise append the chunk to `P`. -/
def rotWrite (st : RotState) (chunk : String) : RotState :=
  if st.maxSize < st.cur.length + chunk.length ∧ st.cur ≠ "" then
    { st with cur := chunk, rotated := st.cur :: st.rotated }
  else
    { st with cur := st.cur ++ chunk }

/-- C7: a write whose chunk would push the non-empty current file over
`maxFileSize` rotates first — every `P.(k-1)` moves to `P.k`, `P` moves
to `P.1`, and the fresh `P` holds only the triggering chunk — while a
fitting write appends.  Concretely with `maxFileSize = 150` and
formatter output lines of 69 bytes (the test's line size): writes 1–2
accumulate in `P`; write 3 would reach 207 bytes, so it leaves `P`
holding only itself and `P.1` the earlier contents; write 4 appends; the
next overflowing write cascades `P.1 → P.2`, `P → P.1`, fresh `P`. -/
theorem rotating_sink_rotation :
    (∀ (st : RotState) (chunk : String),
      st.cur ≠ "" → st.maxSize < st.cur.length + chunk.length →
      rotWrite st chunk = ⟨chunk, st.cur :: st.rotated, st.maxSize⟩) ∧
    (∀ (st : RotState) (chunk : String),
      st.cur.length + chunk.length ≤ st.maxSize →
      rotWrite st chunk = ⟨st.cur ++ chunk, st.rotated, st.maxSize⟩) ∧
    (∀ c₁ c₂ c₃ c₄ c₅ : String,
      c₁.length = 69 → c₂.length = 69 → c₃.length = 69 → c₄.length = 69 →
      c₅.length = 69 →
      rotWrite (rotWrite (rotWrite (rotWrite (rotWrite ⟨"", [], 150⟩ c₁) c₂) c₃) c₄) c₅ =
        ⟨c₅, [c₃ ++ c₄, c₁ ++ c₂], 150⟩) := by
  refine ⟨?_, ?_, ?_⟩
  · intro st chunk hne hover
    rw [rotWrite, if_pos ⟨hover, hne⟩]
  · intro st chunk hfit
    rw [rotWrite, if_neg]
    intro hc
    omega
  · intro c₁ c₂ c₃ c₄ c₅ h₁ h₂ h₃ h₄ h₅
    have l12 : (c₁ ++ c₂).length = 138 := by rw [String.length_append]; omega
    have l34 : (c₃ ++ c₄).length = 138 := by rw [String.length_append]; omega
    have ne12 : (c₁ ++ c₂) ≠ "" := by
      intro he
      rw [he] at l12
      simp at l12
    have ne34 : (c₃ ++ c₄) ≠ "" := by
      intro he
      rw [he] at l34
      simp at l34
    have w₁ : rotWrite ⟨"", [], 150⟩ c₁ = ⟨"" ++ c₁, [], 150⟩ := by
      rw [rotWrite, if_neg]
      dsimp only
      intro hc
      exact hc.2 rfl
    have e₁ : ("" ++ c₁ : String) = c₁ := by simp
    have w₂ : rotWrite ⟨c₁, [], 150⟩ c₂ = ⟨c₁ ++ c₂, [], 150⟩ := by
      rw [rotWrite, if_neg]
      dsimp only
      intro hc
      have := hc.1
      omega
    have w₃ : rotWrite ⟨c₁ ++ c₂, [], 150⟩ c₃ = ⟨c₃, [c₁ ++ c₂], 150⟩ := by
      rw [rotWrite, if_pos]
      dsimp only
      exact ⟨by omega, ne12⟩
    have w₄ : rotWrite ⟨c₃, [c₁ ++ c₂], 150⟩ c₄ = ⟨c₃ ++ c₄, [c₁ ++ c₂], 150⟩ := by
      rw [rotWrite, if_neg]
      dsimp only
      intro hc
      have := hc.1
      omega
    have w₅ : rotWrite ⟨c₃ ++ c₄, [c₁ ++ c₂], 150⟩ c₅ =
        ⟨c₅, [c₃ ++ c₄, c₁ ++ c₂], 150⟩ := by
      rw [rotWrite, if_pos]
      dsimp only
      exact ⟨by omega, ne34⟩
    rw [w₁, e₁, w₂, w₃, w₄, w₅]

/-- Closed instance of `rotating_sink_rotation` (69-byte chunks as in the
test's formatter output). -/
theorem rotating_sink_rotation_witness :
    rotWrite (rotWrite (rotWrite (rotWrite (rotWrite ⟨"", [], 150⟩
        (String.mk (List.replicate 69 'a'))) (String.mk (List.replicate 69 'b')))
        (String.mk (List.replicate 69 'c'))) (String.mk (List.replicate 69 'd')))
        (String.mk (List.replicate 69 'e')) =
      ⟨String.mk (List.replicate 69 'e'),
        [String.mk (List.replicate 69 'c') ++ String.mk (List.replicate 69 'd'),
         String.mk (List.replicate 69 'a') ++ String.mk (List.replicate 69 'b')],
        150⟩ :=
  rotating_sink_rotation.2.2
    (String.mk (List.replicate 69 'a')) (String.mk (List.replicate 69 'b'))
    (String.mk (List.replicate 69 'c')) (String.mk (List.replicate 69 'd'))
    (String.mk (List.replicate 69 'e'))
    (by simp [String.length]) (by simp [String.length]) (by simp [String.length])
    (by simp [String.length]) (by simp [String.length])

/-! ## The interning registry (`getLogger` / `getChild` / `with`, C5, C10)

`LNode` is the `children`-table view of `LoggerImpl`.  JS object identity
(`===`) is modelled by the `tag` field: every `new LoggerImpl(...)` draws
a fresh tag from a counter threaded through the operations, so two nodes
are "the same object" iff their tags are equal.  Operations return the
target node, the updated tree and the updated counter; `none` models the
non-termination of `getChild` on a subcategory that flattens to `[]`
(the source recurses on `slice(1)` of an empty list forever). -/

inductive LNode where
  | mk (tag : Nat) (parentTag : Option Nat) (category : List String)
       (props : Option PropMap) (children : List (String × LNode))

def LNode.tag : LNode → Nat
  | .mk g _ _ _ _ => g

def LNode.parentTag : LNode → Option Nat
  | .mk _ p _ _ _ => p

def LNode.category : LNode → List String
  | .mk _ _ c _ _ => c

def LNode.props : LNode → Option PropMap
  | .mk _ _ _ pr _ => pr

def LNode.children : LNode → List (String × LNode)
  | .mk _ _ _ _ ch => ch

/-- Replace the children table, keeping everything else. -/
def LNode.setChildren : LNode → List (String × LNode) → LNode
  | .mk g p c pr _, ch => .mk g p c pr ch

/-- `this.children[name]` (a found `WeakRef` always dereferences here:
collection is not modelled). -/
def lookupChild : List (String × LNode) → String → Option LNode
  | [], _ => none
  | (k, v) :: rest, name => if k = name then some v else lookupChild rest name

/-- `this.children[name] = child` (replace or append). -/
def setChild : List (String × LNode) → String → LNode → List (String × LNode)
  | [], name, c => [(name, c)]
  | (k, v) :: rest, name, c =>
    if k = name then (k, c) :: rest else (k, v) :: setChild rest name c

/-- `new LoggerImpl(this, [...this.category, name])`: the constructor
merges the parent's properties with the (absent) own properties. -/
def newChild (t : LNode) (ctr : Nat) (name : String) : LNode :=
  .mk ctr (some t.tag) (t.category ++ [name]) (mergeProperties t.props none) []

/-- `LoggerImpl.with(properties)`: `new LoggerImpl(this, this.category,
properties)` — a fresh node (fresh tag, empty children table) sharing the
category, with the merged bound properties. -/
def withNode (t : LNode) (p : PropMap) (ctr : Nat) : LNode :=
  .mk ctr (some t.tag) t.category (mergeProperties t.props (some p)) []

/-- The recursive body of `LoggerImpl.getChild` over the flattened
subcategory list: an empty segment stays at the current node; otherwise
the named child is looked up or created; a single-segment list returns
the child, a longer one recurses on `slice(1)`.  The empty list makes
the source recurse forever (`slice(1)` of `[]` is `[]`), hence `none`. -/
def getChildList : LNode → Nat → List String → Option (LNode × LNode × Nat)
  | _, _, [] => none
  | t, ctr, [name] =>
    if name = "" then some (t, t, ctr)
    else
      match lookupChild t.children name with
      | some c => some (c, t, ctr)
      | none =>
          let c := newChild t ctr name
          some (c, t.setChildren (setChild t.children name c), ctr + 1)
  | t, ctr, name :: rest =>
    if name = "" then getChildList t ctr rest
    else
      match lookupChild t.children name with
      | some c =>
          match getChildList c ctr rest with
          | none => none
          | some (tgt, c', ctr') =>
              some (tgt, t.setChildren (setChild t.children name c'), ctr')
      | none =>
          let c := newChild t ctr name
          match getChildList c (ctr + 1) rest with
          | none => none
          | some (tgt, c', ctr') =>
              some (tgt, t.setChildren (setChild t.children name c'), ctr')

/-- JS falsiness of a `MaybeCategory` value (`""`, `null`, `undefined`
are falsy; every array is truthy). -/
def falsyM : MaybeCategory → Bool
  | .str s => s == ""
  | .absent => true
  | .arr _ => false

/-- `LoggerImpl.getChild(subcategory, properties?)`: a falsy subcategory
returns the node itself (or a properties-bound variant); otherwise the
flattened list is walked. -/
def getChildM (t : LNode) (ctr : Nat) (sub : MaybeCategory)
    (props : Option PropMap) : Option (LNode × LNode × Nat) :=
  if falsyM sub then
    match props with
    | some p => some (withNode t p ctr, t, ctr + 1)
    | none => some (t, t, ctr)
  else getChildList t ctr (getCategoryList sub)

/-- The raw JS `category.length` read by `LoggerImpl.getLogger` before
any flattening (`none`: reading `.length` of `null`/`undefined` throws). -/
def rawLength : MaybeCategory → Option Nat
  | .str s => some s.length
  | .arr xs => some xs.length
  | .absent => none

/-- `LoggerImpl.getLogger(category = [])`: the root itself for a
zero-length category, else `rootLogger.getChild(category)`. -/
def getLoggerM (root : LNode) (ctr : Nat)
    (category : MaybeCategory := .arr []) : Option (LNode × LNode × Nat) :=
  match rawLength category with
  | none => none
  | some 0 => some (root, root, ctr)
  | some (_ + 1) => getChildM root ctr category none

theorem lookupChild_setChild_self (ch : List (String × LNode)) (name : String)
    (c : LNode) : lookupChild (setChild ch name c) name = some c := by
  induction ch with
  | nil => simp [setChild, lookupChild]
  | cons kv rest ih =>
    obtain ⟨k, v⟩ := kv
    by_cases hk : k = name
    · simp [setChild, lookupChild, hk]
    · simp [setChild, lookupChild, hk, ih]

theorem setChild_of_lookup (ch : List (String × LNode)) (name : String) (c : LNode)
    (h : lookupChild ch name = some c) : setChild ch name c = ch := by
  induction ch with
  | nil => simp [lookupChild] at h
  | cons kv rest ih =>
    obtain ⟨k, v⟩ := kv
    by_cases hk : k = name
    · rw [lookupChild, if_pos hk] at h
      cases h
      rw [setChild, if_pos hk]
    · rw [lookupChild, if_neg hk] at h
      rw [setChild, if_neg hk, ih h]

theorem LNode.setChildren_self (t : LNode) : t.setChildren t.children = t := by
  cases t
  rfl

theorem LNode.children_setChildren (t : LNode) (ch : List (String × LNode)) :
    (t.setChildren ch).children = ch := by
  cases t
  rfl

theorem LNode.setChildren_setChildren (t : LNode) (ch ch' : List (String × LNode)) :
    (t.setChildren ch).setChildren ch' = t.setChildren ch' := by
  cases t
  rfl

/-- A second walk of the same flattened subcategory list over the updated
tree finds every node the first walk created: it returns the identical
target (same tag), and changes neither the tree nor the counter. -/
theorem getChildList_idem (l : List String) :
    ∀ (t : LNode) (ctr : Nat) (tgt t' : LNode) (ctr' : Nat),
      getChildList t ctr l = some (tgt, t', ctr') →
      getChildList t' ctr' l = some (tgt, t', ctr') := by
  induction l with
  | nil =>
    intro t ctr tgt t' ctr' h
    simp [getChildList] at h
  | cons a rest ih =>
    intro t ctr tgt t' ctr' h
    cases rest with
    | nil =>
      by_cases ha : a = ""
      · subst ha
        simp only [getChildList, if_pos rfl, Option.some.injEq, Prod.mk.injEq] at h ⊢
        obtain ⟨rfl, rfl, rfl⟩ := h
        rfl
      · cases hlk : lookupChild t.children a with
        | some c =>
          simp only [getChildList, ha, if_neg, hlk, Option.some.injEq, Prod.mk.injEq,
            if_false] at h
          obtain ⟨rfl, rfl, rfl⟩ := h
          simp only [getChildList, ha, if_false, hlk, Option.some.injEq, Prod.mk.injEq]
        | none =>
          simp only [getChildList, ha, if_neg, hlk, Option.some.injEq, Prod.mk.injEq,
            if_false] at h
          obtain ⟨rfl, rfl, rfl⟩ := h
          have hlk2 : lookupChild
              (LNode.setChildren t (setChild t.children a (newChild t ctr a))).children a =
              some (newChild t ctr a) := by
            rw [LNode.children_setChildren]
            exact lookupChild_setChild_self t.children a (newChild t ctr a)
          simp only [getChildList, ha, if_false, hlk2, Option.some.injEq, Prod.mk.injEq]
    | cons b rest2 =>
      by_cases ha : a = ""
      · subst ha
        simp only [getChildList, if_pos rfl] at h ⊢
        exact ih t ctr tgt t' ctr' h
      · cases hlk : lookupChild t.children a with
        | some c =>
          simp only [getChildList, ha, if_neg, hlk, if_false] at h
          cases hrec : getChildList c ctr (b :: rest2) with
          | none => rw [hrec] at h; cases h
          | some res =>
            obtain ⟨tgt0, c', ctr0⟩ := res
            rw [hrec] at h
            simp only [Option.some.injEq, Prod.mk.injEq] at h
            obtain ⟨rfl, rfl, rfl⟩ := h
            have hih := ih c ctr tgt0 c' ctr0 hrec
            have hlk2 : lookupChild
                (LNode.setChildren t (setChild t.children a c')).children a = some c' := by
              rw [LNode.children_setChildren]
              exact lookupChild_setChild_self t.children a c'
            simp only [getChildList, ha, if_false, hlk2, hih]
            rw [LNode.children_setChildren,
              setChild_of_lookup (setChild t.children a c') a c'
                (lookupChild_setChild_self t.children a c'),
              LNode.setChildren_setChildren]
        | none =>
          simp only [getChildList, ha, if_neg, hlk, if_false] at h
          cases hrec : getChildList (newChild t ctr a) (ctr + 1) (b :: rest2) with
          | none => rw [hrec] at h; cases h
          | some res =>
            obtain ⟨tgt0, c', ctr0⟩ := res
            rw [hrec] at h
            simp only [Option.some.injEq, Prod.mk.injEq] at h
            obtain ⟨rfl, rfl, rfl⟩ := h
            have hih := ih (newChild t ctr a) (ctr + 1) tgt0 c' ctr0 hrec
            have hlk2 : lookupChild
                (LNode.setChildren t (setChild t.children a c')).children a = some c' := by
              rw [LNode.children_setChildren]
              exact lookupChild_setChild_self t.children a c'
            simp only [getChildList, ha, if_false, hlk2, hih]
            rw [LNode.children_setChildren,
              setChild_of_lookup (setChild t.children a c') a c'
                (lookupChild_setChild_self t.children a c'),
              LNode.setChildren_setChildren]

theorem falsyM_false_of_rawLength (c : MaybeCategory) (m : Nat)
    (h : rawLength c = some (m + 1)) : falsyM c = false := by
  cases c with
  | str s =>
    simp only [rawLength, Option.some.injEq] at h
    simp only [falsyM, beq_eq_false_iff_ne, ne_eq]
    intro hc
    rw [hc] at h
    simp at h
  | absent => simp [rawLength] at h
  | arr xs => rfl

/-- C5: `getLogger` interning.  `getLogger()` (the `category = []`
default) and `getLogger([])` both return the root, unchanged; a repeated
`getLogger(C)` returns the identical node (same identity tag) and leaves
the tree and the counter untouched; and `getChild("")`,
`getChild([""])` and `getChild(null)`/`getChild(undefined)` (both are
`absent`) return the node itself without creating a tree entry. -/
theorem getLogger_interning :
    (∀ (root : LNode) (ctr : Nat),
      getLoggerM root ctr = some (root, root, ctr) ∧
      getLoggerM root ctr (.arr []) = some (root, root, ctr)) ∧
    (∀ (root : LNode) (ctr : Nat) (c : MaybeCategory) (tgt root' : LNode) (ctr' : Nat),
      getLoggerM root ctr c = some (tgt, root', ctr') →
      getLoggerM root' ctr' c = some (tgt, root', ctr')) ∧
    (∀ (t : LNode) (ctr : Nat),
      getChildM t ctr (.str "") none = some (t, t, ctr) ∧
      getChildM t ctr (.arr [.str ""]) none = some (t, t, ctr) ∧
      getChildM t ctr .absent none = some (t, t, ctr)) := by
  refine ⟨fun root ctr => ⟨rfl, rfl⟩, ?_, ?_⟩
  · intro root ctr c tgt root' ctr' h
    cases hrl : rawLength c with
    | none =>
      have h0 : getLoggerM root ctr c = none := by
        unfold getLoggerM
        rw [hrl]
      rw [h0] at h
      cases h
    | some n =>
      cases n with
      | zero =>
        have h0 : getLoggerM root ctr c = some (root, root, ctr) := by
          unfold getLoggerM
          rw [hrl]
        rw [h0] at h
        simp only [Option.some.injEq, Prod.mk.injEq] at h
        obtain ⟨rfl, rfl, rfl⟩ := h
        exact h0
      | succ m =>
        have hfal : falsyM c = false := falsyM_false_of_rawLength c m hrl
        have hstep : ∀ (r0 : LNode) (k : Nat),
            getLoggerM r0 k c = getChildList r0 k (getCategoryList c) := by
          intro r0 k
          unfold getLoggerM
          rw [hrl]
          unfold getChildM
          rw [hfal]
          rfl
        rw [hstep] at h
        rw [hstep]
        exact getChildList_idem (getCategoryList c) root ctr tgt root' ctr' h
  · intro t ctr
    refine ⟨rfl, ?_, rfl⟩
    have hcl : getCategoryList (.arr [.str ""]) = [""] := by
      simp [getCategoryList, deepFlatten, deepFlattenList]
    simp [getChildM, falsyM, hcl, getChildList]

/-- Closed instance of `getLogger_interning`: after `getLogger(["foo"])`
creates the `foo` child (tag 1) under a fresh root (tag 0), repeating the
call returns the identical node and changes nothing. -/
theorem getLogger_interning_witness :
    getLoggerM
      (.mk 0 none [] none
        [("foo", .mk 1 (some 0) ["foo"] none [])]) 2 (.arr [.str "foo"]) =
      some (.mk 1 (some 0) ["foo"] none [],
        .mk 0 none [] none [("foo", .mk 1 (some 0) ["foo"] none [])], 2) :=
  getLogger_interning.2.1 (.mk 0 none [] none []) 1 (.arr [.str "foo"])
    (.mk 1 (some 0) ["foo"] none [])
    (.mk 0 none [] none [("foo", .mk 1 (some 0) ["foo"] none [])]) 2
    (by
      have hcl : getCategoryList (.arr [.str "foo"]) = ["foo"] := by
        simp [getCategoryList, deepFlatten, deepFlattenList]
      show getChildM (.mk 0 none [] none []) 1 (.arr [.str "foo"]) none = _
      unfold getChildM
      rw [hcl]
      simp [falsyM, getChildList, lookupChild, newChild, mergeProperties,
        LNode.setChildren, LNode.children, LNode.category, LNode.props,
        LNode.tag, setChild])

/-! ## Freshness of `with`-variant children (C10) -/

mutual
/-- Every identity tag in the tree lies outside the half-open interval
`[lo, hi)`.  With `lo` the counter value before a `with` call and `hi`
the value after the variant and its child were allocated, this says the
registry contains neither of the two freshly drawn tags — true in
particular whenever the registry was fully built before the counter
reached `lo`. -/
def tagsOutside (lo hi : Nat) : LNode → Bool
  | .mk tag _ _ _ ch => (decide (tag < lo) || decide (hi ≤ tag)) && tagsOutsideL lo hi ch

def tagsOutsideL (lo hi : Nat) : List (String × LNode) → Bool
  | [] => true
  | (_, c) :: rest => tagsOutside lo hi c && tagsOutsideL lo hi rest
end

theorem tagsOutside_tag (lo hi : Nat) (t : LNode) (h : tagsOutside lo hi t = true) :
    t.tag < lo ∨ hi ≤ t.tag := by
  cases t with
  | mk tag p c pr ch =>
    simp only [tagsOutside, Bool.and_eq_true, Bool.or_eq_true, decide_eq_true_eq] at h
    exact h.1

theorem tagsOutside_children (lo hi : Nat) (t : LNode)
    (h : tagsOutside lo hi t = true) : tagsOutsideL lo hi t.children = true := by
  cases t with
  | mk tag p c pr ch =>
    simp only [tagsOutside, Bool.and_eq_true] at h
    exact h.2

theorem tagsOutsideL_lookup (lo hi : Nat) (ch : List (String × LNode))
    (a : String) (c : LNode) (h : tagsOutsideL lo hi ch = true)
    (hl : lookupChild ch a = some c) : tagsOutside lo hi c = true := by
  induction ch with
  | nil => simp [lookupChild] at hl
  | cons kv rest ih =>
    obtain ⟨k, v⟩ := kv
    rw [tagsOutsideL] at h
    simp only [Bool.and_eq_true] at h
    by_cases hk : k = a
    · rw [lookupChild, if_pos hk] at hl
      cases hl
      exact h.1
    · rw [lookupChild, if_neg hk] at hl
      exact ih h.2 hl

theorem tagsOutsideL_setChild (lo hi : Nat) (ch : List (String × LNode))
    (a : String) (v : LNode) (h : tagsOutsideL lo hi ch = true)
    (hv : tagsOutside lo hi v = true) :
    tagsOutsideL lo hi (setChild ch a v) = true := by
  induction ch with
  | nil =>
    rw [setChild, tagsOutsideL, tagsOutsideL]
    simp [hv]
  | cons kv rest ih =>
    obtain ⟨k, w⟩ := kv
    rw [tagsOutsideL] at h
    simp only [Bool.and_eq_true] at h
    by_cases hk : k = a
    · rw [setChild, if_pos hk, tagsOutsideL]
      simp [hv, h.2]
    · rw [setChild, if_neg hk, tagsOutsideL]
      simp [h.1, ih h.2]

theorem tagsOutside_setChildren (lo hi : Nat) (t : LNode)
    (ch : List (String × LNode)) (ht : tagsOutside lo hi t = true)
    (hch : tagsOutsideL lo hi ch = true) :
    tagsOutside lo hi (t.setChildren ch) = true := by
  cases t with
  | mk tag p c pr ch0 =>
    simp only [tagsOutside, Bool.and_eq_true] at ht ⊢
    simp only [LNode.setChildren]
    simp only [tagsOutside, Bool.and_eq_true]
    exact ⟨ht.1, hch⟩

theorem tagsOutside_newChild (lo hi : Nat) (t : LNode) (ctr : Nat) (name : String)
    (hge : hi ≤ ctr) : tagsOutside lo hi (newChild t ctr name) = true := by
  rw [newChild]
  simp only [tagsOutside, tagsOutsideL, Bool.and_true, Bool.or_eq_true,
    decide_eq_true_eq]
  right
  exact hge

/-- Walking (and extending) a tree whose tags all avoid `[lo, hi)`, with a
counter at or past `hi`, returns a node whose tag also avoids `[lo, hi)`,
preserves the invariant, and never decreases the counter. -/
theorem getChildList_tags_outside (lo hi : Nat) (l : List String) :
    ∀ (t : LNode) (ctr : Nat) (tgt t' : LNode) (ctr' : Nat),
      tagsOutside lo hi t = true → hi ≤ ctr →
      getChildList t ctr l = some (tgt, t', ctr') →
      (tgt.tag < lo ∨ hi ≤ tgt.tag) ∧ tagsOutside lo hi t' = true ∧ ctr ≤ ctr' := by
  induction l with
  | nil =>
    intro t ctr tgt t' ctr' _ _ h
    simp [getChildList] at h
  | cons a rest ih =>
    intro t ctr tgt t' ctr' hout hctr h
    cases rest with
    | nil =>
      by_cases ha : a = ""
      · subst ha
        simp only [getChildList, if_pos rfl, Option.some.injEq, Prod.mk.injEq] at h
        obtain ⟨rfl, rfl, rfl⟩ := h
        exact ⟨tagsOutside_tag lo hi t hout, hout, Nat.le_refl ctr⟩
      · cases hlk : lookupChild t.children a with
        | some c =>
          simp only [getChildList, ha, if_neg, if_false, hlk, Option.some.injEq,
            Prod.mk.injEq] at h
          obtain ⟨rfl, rfl, rfl⟩ := h
          exact ⟨tagsOutside_tag lo hi c
              (tagsOutsideL_lookup lo hi t.children a c
                (tagsOutside_children lo hi t hout) hlk),
            hout, Nat.le_refl ctr⟩
        | none =>
          simp only [getChildList, ha, if_neg, if_false, hlk, Option.some.injEq,
            Prod.mk.injEq] at h
          obtain ⟨rfl, rfl, rfl⟩ := h
          refine ⟨Or.inr ?_, ?_, Nat.le_succ ctr⟩
          · show hi ≤ (newChild t ctr a).tag
            rw [newChild, LNode.tag]
            exact hctr
          · exact tagsOutside_setChildren lo hi t _ hout
              (tagsOutsideL_setChild lo hi t.children a _
                (tagsOutside_children lo hi t hout)
                (tagsOutside_newChild lo hi t ctr a hctr))
    | cons b rest2 =>
      by_cases ha : a = ""
      · subst ha
        simp only [getChildList, if_pos rfl] at h
        exact ih t ctr tgt t' ctr' hout hctr h
      · cases hlk : lookupChild t.children a with
        | some c =>
          simp only [getChildList, ha, if_neg, if_false, hlk] at h
          cases hrec : getChildList c ctr (b :: rest2) with
          | none => rw [hrec] at h; cases h
          | some res =>
            obtain ⟨tgt0, c', ctr0⟩ := res
            rw [hrec] at h
            simp only [Option.some.injEq, Prod.mk.injEq] at h
            obtain ⟨rfl, rfl, rfl⟩ := h
            have hc : tagsOutside lo hi c = true :=
              tagsOutsideL_lookup lo hi t.children a c
                (tagsOutside_children lo hi t hout) hlk
            obtain ⟨h1, h2, h3⟩ := ih c ctr tgt0 c' ctr0 hc hctr hrec
            exact ⟨h1,
              tagsOutside_setChildren lo hi t _ hout
                (tagsOutsideL_setChild lo hi t.children a c'
                  (tagsOutside_children lo hi t hout) h2), h3⟩
        | none =>
          simp only [getChildList, ha, if_neg, if_false, hlk] at h
          cases hrec : getChildList (newChild t ctr a) (ctr + 1) (b :: rest2) with
          | none => rw [hrec] at h; cases h
          | some res =>
            obtain ⟨tgt0, c', ctr0⟩ := res
            rw [hrec] at h
            simp only [Option.some.injEq, Prod.mk.injEq] at h
            obtain ⟨rfl, rfl, rfl⟩ := h
            have hc : tagsOutside lo hi (newChild t ctr a) = true :=
              tagsOutside_newChild lo hi t ctr a hctr
            obtain ⟨h1, h2, h3⟩ := ih (newChild t ctr a) (ctr + 1) tgt0 c' ctr0 hc
              (Nat.le_succ_of_le hctr) hrec
            exact ⟨h1,
              tagsOutside_setChildren lo hi t _ hout
                (tagsOutsideL_setChild lo hi t.children a c'
                  (tagsOutside_children lo hi t hout) h2),
              Nat.le_trans (Nat.le_succ ctr) h3⟩

theorem mergeProperties_none_right (x : Option PropMap) :
    mergeProperties x none = x := by
  cases x <;> rfl

/-- C10: `with(p)` builds a fresh node (fresh tag, its own empty children
table) whose parent is `n`, sharing `n`'s category and carrying the
merged bound properties.  `getChild(s)` on the variant therefore creates
a brand-new node — category `C ++ [s]`, bound properties including `p`,
tag `ctr + 1` — instead of reusing any interned node: a registry whose
tags all predate the two fresh allocations can never hand out the tag
`ctr + 1`, whether the canonical `getLogger(C ++ s)` node already exists
or is created later. -/
theorem with_variant_not_interned :
    (∀ (n : LNode) (p : PropMap) (ctr : Nat),
      (withNode n p ctr).tag = ctr ∧
      (withNode n p ctr).children = [] ∧
      (withNode n p ctr).parentTag = some n.tag ∧
      (withNode n p ctr).category = n.category ∧
      (withNode n p ctr).props = mergeProperties n.props (some p)) ∧
    (∀ (n : LNode) (p : PropMap) (ctr : Nat) (s : String), s ≠ "" →
      getChildList (withNode n p ctr) (ctr + 1) [s] =
        some (.mk (ctr + 1) (some ctr) (n.category ++ [s])
            (mergeProperties n.props (some p)) [],
          .mk ctr (some n.tag) n.category (mergeProperties n.props (some p))
            [(s, .mk (ctr + 1) (some ctr) (n.category ++ [s])
              (mergeProperties n.props (some p)) [])],
          ctr + 2)) ∧
    (∀ (t : LNode) (ctr ctr2 : Nat) (cat : MaybeCategory) (tgt t' : LNode)
      (ctr' : Nat),
      tagsOutside ctr (ctr + 2) t = true → ctr + 2 ≤ ctr2 →
      getLoggerM t ctr2 cat = some (tgt, t', ctr') →
      tgt.tag ≠ ctr + 1) := by
  refine ⟨?_, ?_, ?_⟩
  · intro n p ctr
    exact ⟨rfl, rfl, rfl, rfl, rfl⟩
  · intro n p ctr s hs
    simp only [getChildList, hs, if_neg, if_false]
    have hlk : lookupChild (withNode n p ctr).children s = none := rfl
    rw [hlk]
    simp [newChild, withNode, LNode.setChildren, LNode.tag, LNode.category,
      LNode.props, LNode.children, setChild, mergeProperties_none_right]
  · intro t ctr ctr2 cat tgt t' ctr' hout hle h
    cases hrl : rawLength cat with
    | none =>
      have h0 : getLoggerM t ctr2 cat = none := by
        unfold getLoggerM
        rw [hrl]
      rw [h0] at h
      cases h
    | some n =>
      cases n with
      | zero =>
        have h0 : getLoggerM t ctr2 cat = some (t, t, ctr2) := by
          unfold getLoggerM
          rw [hrl]
        rw [h0] at h
        simp only [Option.some.injEq, Prod.mk.injEq] at h
        obtain ⟨rfl, rfl, rfl⟩ := h
        have := tagsOutside_tag ctr (ctr + 2) t hout
        omega
      | succ m =>
        have hfal : falsyM cat = false := falsyM_false_of_rawLength cat m hrl
        have hstep : getLoggerM t ctr2 cat =
            getChildList t ctr2 (getCategoryList cat) := by
          unfold getLoggerM
          rw [hrl]
          unfold getChildM
          rw [hfal]
          rfl
        rw [hstep] at h
        obtain ⟨htag, _, _⟩ := getChildList_tags_outside ctr (ctr + 2)
          (getCategoryList cat) t ctr2 tgt t' ctr' hout (by omega) h
        omega

/-- Closed instance of `with_variant_not_interned`: the variant of the
interned `["foo"]` node (tag 5) binds `{a: 1}` at counter 6; its `bar`
child gets tag 7, while the canonical `["foo", "bar"]` registry node
keeps tag 2 — a different object. -/
theorem with_variant_not_interned_witness :
    getChildList (withNode (.mk 5 none ["foo"] none []) [("a", .nat 1)] 6) 7
        ["bar"] =
      some (.mk 7 (some 6) (["foo"] ++ ["bar"])
          (mergeProperties (LNode.mk 5 none ["foo"] none []).props
            (some [("a", .nat 1)])) [],
        .mk 6 (some 5) ["foo"]
          (mergeProperties (LNode.mk 5 none ["foo"] none []).props
            (some [("a", .nat 1)]))
          [("bar", .mk 7 (some 6) (["foo"] ++ ["bar"])
            (mergeProperties (LNode.mk 5 none ["foo"] none []).props
              (some [("a", .nat 1)])) [])],
        8) ∧
    (LNode.mk 2 (some 1) ["foo", "bar"] none []).tag ≠ 7 :=
  ⟨with_variant_not_interned.2.1 (.mk 5 none ["foo"] none [])
      [("a", .nat 1)] 6 "bar" (by decide),
    with_variant_not_interned.2.2
      (.mk 0 none [] none
        [("foo", .mk 1 (some 0) ["foo"] none
          [("bar", .mk 2 (some 1) ["foo", "bar"] none [])])])
      6 8 (.arr [.str "foo", .str "bar"])
      (.mk 2 (some 1) ["foo", "bar"] none [])
      (.mk 0 none [] none
        [("foo", .mk 1 (some 0) ["foo"] none
          [("bar", .mk 2 (some 1) ["foo", "bar"] none [])])])
      8
      (by simp [tagsOutside, tagsOutsideL])
      (by omega)
      (by
        have hcl : getCategoryList (.arr [.str "foo", .str "bar"]) =
            ["foo", "bar"] := by
          simp [getCategoryList, deepFlatten, deepFlattenList]
        show getChildM _ 8 (.arr [.str "foo", .str "bar"]) none = _
        unfold getChildM
        rw [hcl]
        simp [falsyM, getChildList, lookupChild, LNode.children,
          LNode.setChildren, setChild])⟩

end Logtape
